import Mathlib

/-!
CipherExample: a rotation cipher over `'a'..'z'` plus space.

A shallow embedding of `src/CipherExample.cpp`.

* A `char` is modelled by its byte value, a `Nat` (`'a'` is 97, `' '` is 32,
  `'A'` is 65).  Only characters that pass the `isalpha` guard or equal the
  space reach `v - 'a'`, all of them below 128, so the signedness of `char`
  plays no part.
* A `size_t` is a `Nat` taken modulo `2 ^ 64` wherever the C++ arithmetic can
  wrap (`v - 'a'`, `pos + rotation`, `rotations + i`).
* `letters[idx]` is an unchecked read of a 27-entry `std::array`; the model
  returns `none` when the index is outside the table, so the rotation
  functions have type `Option Nat` and the string functions `Option (List Nat)`.
* `srand`/`rand` are modelled by a function `gen seed i`, the `i`-th draw after
  seeding with `seed`.
-/

namespace CipherExample

/-- The number of values of a 64-bit `size_t`. -/
def sizeModulus : Nat := 2 ^ 64

/-- The number of values of a 32-bit `unsigned int`. -/
def uintModulus : Nat := 2 ^ 32

/-- Table built by `getLetters`: `ret.at(i) = 'a' + i` for `i < 26`, then
`ret.at(26) = ' '`. -/
def getLetters : List Nat :=
  (List.range 26).map (fun i => 97 + i) ++ [32]

/-- The global `letters = getLetters()`. -/
def letters : List Nat := getLetters

/-- Library function `std::isalpha` in the default "C" locale (the program
never calls `setlocale`): true exactly on `'A'..'Z'` and `'a'..'z'`. -/
def isalpha (v : Nat) : Bool :=
  (decide (65 ≤ v) && decide (v ≤ 90)) || (decide (97 ≤ v) && decide (v ≤ 122))

/-- Value of `letters.size() - !includeSpaces`. -/
def effectiveSize (includeSpaces : Bool) : Nat :=
  letters.length - (if includeSpaces then 0 else 1)

/-- Function `rotateForward(char v, size_t rotation, bool includeSpaces)`. -/
def rotateForward (v : Nat) (rotation : Nat) (includeSpaces : Bool) : Option Nat :=
  if v = 32 ∧ includeSpaces = false then some v
  else if v ≠ 32 ∧ isalpha v = false then some v
  else
    let rotation := rotation % effectiveSize includeSpaces
    let pos := if v = 32 then letters.length - 1 else (v + sizeModulus - 97) % sizeModulus
    let idx := ((pos + rotation) % sizeModulus) % effectiveSize includeSpaces
    letters[idx]?

/-- Function `rotateBackward(char v, size_t rotation, bool includeSpaces)`. -/
def rotateBackward (v : Nat) (rotation : Nat) (includeSpaces : Bool) : Option Nat :=
  if v = 32 ∧ includeSpaces = false then some v
  else if v ≠ 32 ∧ isalpha v = false then some v
  else
    let rotation := rotation % effectiveSize includeSpaces
    let pos := if v = 32 then letters.length - 1 else (v + sizeModulus - 97) % sizeModulus
    let pos := if pos < rotation then effectiveSize includeSpaces - (rotation - pos)
               else pos - rotation
    letters[pos]?

/-- One character of any of the three string functions: the `if (forward)`
inside the loop body. -/
def rotate (forward : Bool) (v : Nat) (rotation : Nat) (includeSpaces : Bool) : Option Nat :=
  if forward then rotateForward v rotation includeSpaces
  else rotateBackward v rotation includeSpaces

/-- The loop of `cipher` from index `i` on: `ret[i] = rotate(str[i], rotations + i)`
with the sum taken in `size_t`. -/
def cipherLoop (rotations : Nat) (forward includeSpaces : Bool) : Nat → List Nat → Option (List Nat)
  | _, [] => some []
  | i, c :: cs =>
    match rotate forward c ((rotations + i) % sizeModulus) includeSpaces with
    | none => none
    | some x =>
      match cipherLoop rotations forward includeSpaces (i + 1) cs with
      | none => none
      | some xs => some (x :: xs)

/-- Function `cipher(str, rotations, forward, includeSpaces)`. -/
def cipher (str : List Nat) (rotations : Nat) (forward includeSpaces : Bool) : Option (List Nat) :=
  cipherLoop rotations forward includeSpaces 0 str

/-- The loop of `rotCipher`: every character is rotated by `rotations`. -/
def rotCipherLoop (rotations : Nat) (forward includeSpaces : Bool) : List Nat → Option (List Nat)
  | [] => some []
  | c :: cs =>
    match rotate forward c rotations includeSpaces with
    | none => none
    | some x =>
      match rotCipherLoop rotations forward includeSpaces cs with
      | none => none
      | some xs => some (x :: xs)

/-- Function `rotCipher(str, rotations, forward, includeSpaces)`. -/
def rotCipher (str : List Nat) (rotations : Nat) (forward includeSpaces : Bool) : Option (List Nat) :=
  rotCipherLoop rotations forward includeSpaces str

/-- The loop of `randCipher` from the `i`-th call of `rand()` on; `draw i` is
the value of that call. -/
def randCipherLoop (draw : Nat → Nat) (forward includeSpaces : Bool) : Nat → List Nat → Option (List Nat)
  | _, [] => some []
  | i, c :: cs =>
    match rotate forward c (draw i) includeSpaces with
    | none => none
    | some x =>
      match randCipherLoop draw forward includeSpaces (i + 1) cs with
      | none => none
      | some xs => some (x :: xs)

/-- Function `randCipher(str, key, forward, includeSpaces)`: `srand` with the
key truncated to `unsigned int`, then one `rand()` per character.  `gen seed i`
is the `i`-th value `rand()` returns after `srand(seed)`. -/
def randCipher (gen : Nat → Nat → Nat) (str : List Nat) (key : Nat) (forward includeSpaces : Bool) :
    Option (List Nat) :=
  randCipherLoop (gen (key % uintModulus)) forward includeSpaces 0 str

/-- The bytes of a string literal. -/
def bytes (s : String) : List Nat := s.toList.map Char.toNat

/-- An upper-case letter `'A'..'Z'`. -/
def isUpper (v : Nat) : Prop := 65 ≤ v ∧ v ≤ 90

/-- A lower-case letter `'a'..'z'`. -/
def isLower (v : Nat) : Prop := 97 ≤ v ∧ v ≤ 122

instance (v : Nat) : Decidable (isUpper v) := by unfold isUpper; infer_instance

instance (v : Nat) : Decidable (isLower v) := by unfold isLower; infer_instance

/-- A character the rotation moves: a lower-case letter, or the space when
spaces are included. -/
def participates (v : Nat) (includeSpaces : Bool) : Prop :=
  isLower v ∨ (v = 32 ∧ includeSpaces = true)

instance (v : Nat) (s : Bool) : Decidable (participates v s) := by
  unfold participates; infer_instance

/-- Position of a symbol in the alphabet: `'a'..'z'` at 0..25, space at 26. -/
def position (v : Nat) : Nat := if v = 32 then 26 else v - 97

/-- The 27 symbols of the alphabet: `'a'..'z'` and space. -/
def inAlphabet (v : Nat) : Prop := isLower v ∨ v = 32

instance (v : Nat) : Decidable (inAlphabet v) := by unfold inAlphabet; infer_instance

/-- The inverse of the forward rotation as the specification words it: the
symbol at index `(p + n - (r mod n)) mod n`. -/
def rotateBackwardSpec (v : Nat) (rotation : Nat) (includeSpaces : Bool) : Option Nat :=
  letters[(position v + effectiveSize includeSpaces
            - rotation % effectiveSize includeSpaces) % effectiveSize includeSpaces]?

/-- The common shape of the three loops: the character at index `i` is
rotated by `rot i`. Used to reason about `cipherLoop`, `rotCipherLoop` and
`randCipherLoop` at once. -/
def rotateEach (forward includeSpaces : Bool) (rot : Nat → Nat) : Nat → List Nat → Option (List Nat)
  | _, [] => some []
  | i, c :: cs =>
    match rotate forward c (rot i) includeSpaces with
    | none => none
    | some x =>
      match rotateEach forward includeSpaces rot (i + 1) cs with
      | none => none
      | some xs => some (x :: xs)

/-- Library function `std::tolower` in the default "C" locale: `'A'..'Z'` are
moved to `'a'..'z'`, every other value is returned as it is. -/
def tolower (v : Nat) : Nat := if 65 ≤ v ∧ v ≤ 90 then v + 32 else v

/-- The loop of `main` over the input line:
`if (std::isalpha(i)) i = std::tolower(i)`. -/
def foldLower (input : List Nat) : List Nat :=
  input.map (fun i => if isalpha i then tolower i else i)

/-- A result that exists, has the length of the input, and keeps every
character that is neither an alphabetic letter nor a space with
`includeSpaces` true at its index. -/
def preservesFrame (text : List Nat) (includeSpaces : Bool) (result : Option (List Nat)) : Prop :=
  ∃ out : List Nat, result = some out ∧ out.length = text.length ∧
    ∀ (i c : Nat), text[i]? = some c → isalpha c = false → ¬ (c = 32 ∧ includeSpaces = true) →
      out[i]? = some c

/-! ## The alphabet table -/

theorem letters_length : letters.length = 27 := rfl

theorem effectiveSize_true : effectiveSize true = 27 := rfl

theorem effectiveSize_false : effectiveSize false = 26 := rfl

theorem letters_lookup (i : Nat) (h : i < 27) :
    letters[i]? = some (if i < 26 then 97 + i else 32) := by
  interval_cases i <;> rfl

theorem letters_lookup_none (i : Nat) (h : 27 ≤ i) : letters[i]? = none := by
  rw [List.getElem?_eq_none_iff, letters_length]
  exact h

/-! ## Closed forms of the two rotations -/

theorem effectiveSize_pos (s : Bool) : 0 < effectiveSize s := by cases s <;> decide

theorem effectiveSize_le (s : Bool) : effectiveSize s ≤ 27 := by cases s <;> decide

theorem position_lt (c : Nat) (s : Bool) (h : participates c s) :
    position c < effectiveSize s := by
  rcases h with ⟨h1, h2⟩ | ⟨h1, h2⟩
  · have : position c = c - 97 := by simp [position]; omega
    cases s <;> simp [effectiveSize_true, effectiveSize_false] <;> omega
  · subst h1 h2; decide

theorem rotateForward_participates (c r : Nat) (s : Bool) (h : participates c s) :
    rotateForward c r s
      = letters[(position c + r % effectiveSize s) % effectiveSize s]? := by
  have hr : r % effectiveSize s < 27 :=
    lt_of_lt_of_le (Nat.mod_lt _ (effectiveSize_pos s)) (effectiveSize_le s)
  rcases h with ⟨h1, h2⟩ | ⟨h1, h2⟩
  · have ha : isalpha c = true := by simp [isalpha, h1, h2]
    have hc : c ≠ 32 := by omega
    have hp : (c + sizeModulus - 97) % sizeModulus = c - 97 := by
      simp only [sizeModulus]; omega
    have hs : (c - 97 + r % effectiveSize s) % sizeModulus = c - 97 + r % effectiveSize s := by
      simp only [sizeModulus]; omega
    simp [rotateForward, position, hc, ha, hp, hs]
  · subst h1 h2
    have hs : (26 + r % effectiveSize true) % sizeModulus = 26 + r % effectiveSize true := by
      simp only [sizeModulus]; omega
    simp [rotateForward, position, letters_length, hs]

theorem rotateBackward_participates (c r : Nat) (s : Bool) (h : participates c s) :
    rotateBackward c r s = rotateBackwardSpec c r s := by
  have hr : r % effectiveSize s < effectiveSize s := Nat.mod_lt _ (effectiveSize_pos s)
  have hp := position_lt c s h
  have key : (if position c < r % effectiveSize s
                then effectiveSize s - (r % effectiveSize s - position c)
                else position c - r % effectiveSize s)
      = (position c + effectiveSize s - r % effectiveSize s) % effectiveSize s := by
    generalize r % effectiveSize s = k at hr
    generalize effectiveSize s = n at hr hp
    generalize position c = p at hp
    split
    · rw [Nat.mod_eq_of_lt (by omega)]; omega
    · have : p + n - k = (p - k) + n := by omega
      rw [this, Nat.add_mod_right, Nat.mod_eq_of_lt (by omega)]
  rw [rotateBackwardSpec, ← key]
  rcases h with ⟨h1, h2⟩ | ⟨h1, h2⟩
  · have ha : isalpha c = true := by simp [isalpha, h1, h2]
    have hc : c ≠ 32 := by omega
    have hq : (c + sizeModulus - 97) % sizeModulus = c - 97 := by
      simp only [sizeModulus]; omega
    simp [rotateBackward, position, hc, ha, hq]
  · subst h1 h2
    simp [rotateBackward, position, letters_length]

theorem rotate_passThrough (f : Bool) (c r : Nat) (s : Bool)
    (h1 : isalpha c = false) (h2 : ¬ (c = 32 ∧ s = true)) :
    rotate f c r s = some c := by
  have h3 : c = 32 → s = false := by
    intro h; cases s <;> simp_all
  by_cases hc : c = 32
  · have := h3 hc
    cases f <;> simp [rotate, rotateForward, rotateBackward, hc, this]
  · cases f <;> simp [rotate, rotateForward, rotateBackward, hc, h1]

theorem isalpha_false_of_not (c : Nat) (s : Bool) (h1 : ¬ isUpper c) (h2 : ¬ participates c s) :
    isalpha c = false ∧ ¬ (c = 32 ∧ s = true) := by
  simp only [isUpper, participates, isLower, not_or, not_and, not_le] at h1 h2
  refine ⟨?_, fun h => h2.2 h.1 h.2⟩
  have h3 := h2.1
  simp only [isalpha, Bool.or_eq_false_iff, Bool.and_eq_false_iff, decide_eq_false_iff_not, not_le]
  omega

theorem lookup_participates (i : Nat) (s : Bool) (h : i < effectiveSize s) :
    ∃ x, letters[i]? = some x ∧ participates x s ∧ position x = i := by
  cases s
  · rw [effectiveSize_false] at h
    interval_cases i <;> exact ⟨_, rfl, by decide, by decide⟩
  · rw [effectiveSize_true] at h
    interval_cases i <;> exact ⟨_, rfl, by decide, by decide⟩

theorem letters_position (c : Nat) (s : Bool) (h : participates c s) :
    letters[position c]? = some c := by
  rcases h with ⟨h1, h2⟩ | ⟨h1, _⟩
  · have hp : position c = c - 97 := by simp [position]; omega
    rw [hp, letters_lookup _ (by omega), if_pos (by omega)]
    congr 1; omega
  · subst h1; rfl

theorem forward_then_backward_index (p r : Nat) (s : Bool) (hp : p < effectiveSize s) :
    ((p + r % effectiveSize s) % effectiveSize s + effectiveSize s - r % effectiveSize s)
      % effectiveSize s = p := by
  cases s
  · simp only [effectiveSize_false] at *; omega
  · simp only [effectiveSize_true] at *; omega

theorem backward_then_forward_index (p r : Nat) (s : Bool) (hp : p < effectiveSize s) :
    ((p + effectiveSize s - r % effectiveSize s) % effectiveSize s + r % effectiveSize s)
      % effectiveSize s = p := by
  cases s
  · simp only [effectiveSize_false] at *; omega
  · simp only [effectiveSize_true] at *; omega

theorem complement_index (p r : Nat) (s : Bool) (hp : p < effectiveSize s) :
    (p + (effectiveSize s - r % effectiveSize s) % effectiveSize s) % effectiveSize s
      = (p + effectiveSize s - r % effectiveSize s) % effectiveSize s := by
  cases s
  · simp only [effectiveSize_false] at *; omega
  · simp only [effectiveSize_true] at *; omega

/-- Decrypting one encrypted character gives it back, for every character that
is not an upper-case letter. -/
theorem rotate_roundTrip (c r : Nat) (s : Bool) (h : ¬ isUpper c) :
    (rotateForward c r s).bind (fun x => rotateBackward x r s) = some c := by
  by_cases hp : participates c s
  · have hi : (position c + r % effectiveSize s) % effectiveSize s < effectiveSize s :=
      Nat.mod_lt _ (effectiveSize_pos s)
    obtain ⟨x, hx, hxp, hxi⟩ := lookup_participates _ s hi
    rw [rotateForward_participates c r s hp, hx, Option.some_bind,
      rotateBackward_participates x r s hxp, rotateBackwardSpec, hxi,
      forward_then_backward_index _ r s (position_lt c s hp)]
    exact letters_position c s hp
  · obtain ⟨h1, h2⟩ := isalpha_false_of_not c s h hp
    have hf := rotate_passThrough true c r s h1 h2
    have hb := rotate_passThrough false c r s h1 h2
    simp only [rotate, if_true, Bool.false_eq_true, if_false] at hf hb
    rw [hf, Option.some_bind, hb]

/-- Encrypting one decrypted character gives it back, for every character that
is not an upper-case letter. -/
theorem rotate_roundTrip_rev (c r : Nat) (s : Bool) (h : ¬ isUpper c) :
    (rotateBackward c r s).bind (fun x => rotateForward x r s) = some c := by
  by_cases hp : participates c s
  · have hi : (position c + effectiveSize s - r % effectiveSize s) % effectiveSize s
        < effectiveSize s := Nat.mod_lt _ (effectiveSize_pos s)
    obtain ⟨x, hx, hxp, hxi⟩ := lookup_participates _ s hi
    rw [rotateBackward_participates c r s hp, rotateBackwardSpec, hx, Option.some_bind,
      rotateForward_participates x r s hxp, hxi,
      backward_then_forward_index _ r s (position_lt c s hp)]
    exact letters_position c s hp
  · obtain ⟨h1, h2⟩ := isalpha_false_of_not c s h hp
    have hf := rotate_passThrough true c r s h1 h2
    have hb := rotate_passThrough false c r s h1 h2
    simp only [rotate, if_true, Bool.false_eq_true, if_false] at hf hb
    rw [hb, Option.some_bind, hf]

/-! ## Upper-case letters -/

theorem rotateForward_upper (c r : Nat) (s : Bool) (h : isUpper c) :
    ∃ x, rotateForward c r s = some x ∧ participates x s := by
  obtain ⟨h1, h2⟩ := h
  have ha : isalpha c = true := by simp [isalpha, h1, h2]
  have hc : c ≠ 32 := by omega
  have hi : ((c + sizeModulus - 97) % sizeModulus + r % effectiveSize s) % sizeModulus
      % effectiveSize s < effectiveSize s := Nat.mod_lt _ (effectiveSize_pos s)
  obtain ⟨x, hx, hxp, _⟩ := lookup_participates _ s hi
  rw [Nat.mod_add_mod] at hx
  exact ⟨x, by simp [rotateForward, hc, ha, hx], hxp⟩

theorem rotateBackward_upper (c r : Nat) (s : Bool) (h : isUpper c) :
    rotateBackward c r s = none := by
  obtain ⟨h1, h2⟩ := h
  have ha : isalpha c = true := by simp [isalpha, h1, h2]
  have hc : c ≠ 32 := by omega
  have hr : r % effectiveSize s < 27 :=
    lt_of_lt_of_le (Nat.mod_lt _ (effectiveSize_pos s)) (effectiveSize_le s)
  have hp : (c + sizeModulus - 97) % sizeModulus = c + sizeModulus - 97 := by
    simp only [sizeModulus]; omega
  have hge : ¬ (c + sizeModulus - 97 < r % effectiveSize s) := by
    simp only [sizeModulus]; omega
  simp only [rotateBackward, hc, ha, false_and, if_false, hp, hge, ne_eq, not_false_eq_true,
    Bool.true_eq_false, and_false]
  apply letters_lookup_none
  simp only [sizeModulus]; omega

theorem participates_not_upper (x : Nat) (s : Bool) (h : participates x s) : ¬ isUpper x := by
  simp only [participates, isLower, isUpper] at *
  omega

theorem rotateForward_closed (c r : Nat) (s : Bool) (h : participates c s) :
    ∃ x, rotateForward c r s = some x ∧ participates x s := by
  obtain ⟨x, hx, hxp, _⟩ := lookup_participates _ s
    (Nat.mod_lt (position c + r % effectiveSize s) (effectiveSize_pos s))
  exact ⟨x, by rw [rotateForward_participates c r s h, hx], hxp⟩

theorem rotateBackward_closed (c r : Nat) (s : Bool) (h : participates c s) :
    ∃ x, rotateBackward c r s = some x ∧ participates x s := by
  obtain ⟨x, hx, hxp, _⟩ := lookup_participates _ s
    (Nat.mod_lt (position c + effectiveSize s - r % effectiveSize s) (effectiveSize_pos s))
  exact ⟨x, by rw [rotateBackward_participates c r s h, rotateBackwardSpec, hx], hxp⟩

/-! ## The three loops -/

theorem cipherLoop_eq (key : Nat) (f s : Bool) (text : List Nat) :
    ∀ i, cipherLoop key f s i text
      = rotateEach f s (fun j => (key + j) % sizeModulus) i text := by
  induction text with
  | nil => intro i; rfl
  | cons c cs ih => intro i; simp only [cipherLoop, rotateEach, ih]

theorem rotCipherLoop_eq (key : Nat) (f s : Bool) (text : List Nat) :
    ∀ i, rotCipherLoop key f s text = rotateEach f s (fun _ => key) i text := by
  induction text with
  | nil => intro i; rfl
  | cons c cs ih => intro i; simp only [rotCipherLoop, rotateEach, ih (i + 1)]

theorem randCipherLoop_eq (draw : Nat → Nat) (f s : Bool) (text : List Nat) :
    ∀ i, randCipherLoop draw f s i text = rotateEach f s draw i text := by
  induction text with
  | nil => intro i; rfl
  | cons c cs ih => intro i; simp only [randCipherLoop, rotateEach, ih]

theorem rotateEach_roundTrip (s : Bool) (rot : Nat → Nat) (text : List Nat) :
    ∀ i, (∀ c ∈ text, ¬ isUpper c) →
      (rotateEach true s rot i text).bind (fun e => rotateEach false s rot i e) = some text := by
  induction text with
  | nil => intro i _; rfl
  | cons c cs ih =>
    intro i h
    have hc := rotate_roundTrip c (rot i) s (h c (List.mem_cons_self c cs))
    have hcs := ih (i + 1) (fun d hd => h d (List.mem_cons_of_mem c hd))
    obtain ⟨x, hx, hxb⟩ := Option.bind_eq_some.mp hc
    obtain ⟨xs, hxs, hxsb⟩ := Option.bind_eq_some.mp hcs
    simp [rotateEach, rotate, hx, hxs, hxb, hxsb]

/-! ## Round-trip laws -/

/-- C1: for every character `c` of the alphabet (`'a'..'z'` or space), every
rotation `r` and both values of `includeSpaces`, `rotateBackward` applied to
`rotateForward c r includeSpaces` with the same `r` and flag returns `c` (and
neither table read is out of range). -/
theorem rotateBackward_rotateForward_alphabet (c r : Nat) (s : Bool) (h : inAlphabet c) :
    (rotateForward c r s).bind (fun x => rotateBackward x r s) = some c := by
  apply rotate_roundTrip
  simp only [inAlphabet, isLower, isUpper] at *
  omega

theorem rotateBackward_rotateForward_alphabet_witness :
    inAlphabet 122 ∧
      (rotateForward 122 (2 ^ 64 - 1) true).bind (fun x => rotateBackward x (2 ^ 64 - 1) true)
        = some 122 :=
  ⟨by decide, rotateBackward_rotateForward_alphabet 122 (2 ^ 64 - 1) true (by decide)⟩

/-- C2 (as stated, refuted): for the printable character `'A'` (65), rotation 0
and `includeSpaces = false`, `rotateForward` returns `'k'` (107) and
`rotateBackward` leaves `'k'` where it is, so the round trip does not give
`'A'` back. -/
theorem roundTrip_upper_A_fails :
    rotateForward 65 0 false = some 107 ∧
      (rotateForward 65 0 false).bind (fun x => rotateBackward x 0 false) = some 107 ∧
      (rotateForward 65 0 false).bind (fun x => rotateBackward x 0 false) ≠ some 65 := by
  decide

/-- C2 (amended): for every printable-ASCII character `c` (0x20..0x7E), every
rotation `r` and both values of `includeSpaces`, the round trip
`rotateBackward (rotateForward c r s) r s` returns `c` exactly when `c` is not
an upper-case letter. -/
theorem rotateBackward_rotateForward_printable (c r : Nat) (s : Bool)
    (_hlo : 32 ≤ c) (_hhi : c ≤ 126) :
    (rotateForward c r s).bind (fun x => rotateBackward x r s) = some c ↔ ¬ isUpper c := by
  constructor
  · intro h hu
    obtain ⟨x, hx, hxp⟩ := rotateForward_upper c r s hu
    rw [hx, Option.some_bind] at h
    obtain ⟨y, hy, hyp⟩ := rotateBackward_closed x r s hxp
    rw [hy] at h
    cases h
    exact participates_not_upper c s hyp hu
  · exact rotate_roundTrip c r s

theorem rotateBackward_rotateForward_printable_witness :
    ((rotateForward 33 7 true).bind (fun x => rotateBackward x 7 true) = some 33 ↔ ¬ isUpper 33) ∧
    ((rotateForward 90 7 true).bind (fun x => rotateBackward x 7 true) = some 90 ↔ ¬ isUpper 90) :=
  ⟨rotateBackward_rotateForward_printable 33 7 true (by decide) (by decide),
   rotateBackward_rotateForward_printable 90 7 true (by decide) (by decide)⟩

/-- C3: for every text without upper-case letters, every key (the sum
`key + i` is taken modulo `2 ^ 64`) and both values of `includeSpaces`,
decrypting `cipher text key true s` with `cipher _ key false s` returns `text`. -/
theorem cipher_roundTrip (text : List Nat) (key : Nat) (s : Bool)
    (h : ∀ c ∈ text, ¬ isUpper c) :
    (cipher text key true s).bind (fun e => cipher e key false s) = some text := by
  have := rotateEach_roundTrip s (fun j => (key + j) % sizeModulus) text 0 h
  simpa only [cipher, cipherLoop_eq] using this

theorem cipher_roundTrip_witness :
    (cipher (bytes "zz, a!") (2 ^ 64 - 2) true true).bind
        (fun e => cipher e (2 ^ 64 - 2) false true) = some (bytes "zz, a!") :=
  cipher_roundTrip (bytes "zz, a!") (2 ^ 64 - 2) true (by decide)

/-- C4: for every text without upper-case letters, every key and both values
of `includeSpaces`, decrypting `rotCipher text key true s` with
`rotCipher _ key false s` returns `text`; and `rotCipher "hello world" 13` is
`"uryyb jbeyq"` (space untouched), which decrypts to `"hello world"`. -/
theorem rotCipher_roundTrip :
    (∀ (text : List Nat) (key : Nat) (s : Bool), (∀ c ∈ text, ¬ isUpper c) →
      (rotCipher text key true s).bind (fun e => rotCipher e key false s) = some text) ∧
    rotCipher (bytes "hello world") 13 true false = some (bytes "uryyb jbeyq") ∧
    rotCipher (bytes "uryyb jbeyq") 13 false false = some (bytes "hello world") := by
  refine ⟨?_, by decide, by decide⟩
  intro text key s h
  have := rotateEach_roundTrip s (fun _ => key) text 0 h
  simpa only [rotCipher, ← rotCipherLoop_eq key _ s _ 0] using this

theorem rotCipher_roundTrip_witness :
    (rotCipher (bytes "a b.c") 30 true true).bind (fun e => rotCipher e 30 false true)
      = some (bytes "a b.c") :=
  rotCipher_roundTrip.1 (bytes "a b.c") 30 true (by decide)

/-- C5: for every generator `gen` (seed to sequence of draws), every text
without upper-case letters, every key and both values of `includeSpaces`,
decrypting `randCipher text key true s` with `randCipher _ key false s`
returns `text`: both calls reseed with the key truncated to `unsigned int`
and use the `i`-th draw for the `i`-th character. -/
theorem randCipher_roundTrip (gen : Nat → Nat → Nat) (text : List Nat) (key : Nat) (s : Bool)
    (h : ∀ c ∈ text, ¬ isUpper c) :
    (randCipher gen text key true s).bind (fun e => randCipher gen e key false s)
      = some text := by
  have := rotateEach_roundTrip s (gen (key % uintModulus)) text 0 h
  simpa only [randCipher, randCipherLoop_eq] using this

theorem randCipher_roundTrip_witness :
    (randCipher (fun seed i => seed * 31 + i * i) (bytes "ab c") (2 ^ 32 + 5) true true).bind
        (fun e => randCipher (fun seed i => seed * 31 + i * i) e (2 ^ 32 + 5) false true)
      = some (bytes "ab c") :=
  randCipher_roundTrip (fun seed i => seed * 31 + i * i) (bytes "ab c") (2 ^ 32 + 5) true
    (by decide)

/-! ## Pass-through and totality -/

/-- C6 (as stated, refuted): `'Z'` (90) is not a lower-case letter and not a
space, yet with rotation 3 and `includeSpaces = true` `rotateForward` returns
`'v'` (118) and `rotateBackward` reads the table out of range. -/
theorem passThrough_upper_Z_fails :
    (¬ isLower 90 ∧ ¬ ((90 : Nat) = 32 ∧ true = true)) ∧
      rotateForward 90 3 true = some 118 ∧ rotateForward 90 3 true ≠ some 90 ∧
      rotateBackward 90 3 true = none := by
  decide

/-- C6 (amended): a character that is not a lower-case letter and not a space
with `includeSpaces = true` is returned unchanged by both `rotateForward` and
`rotateBackward`, for every rotation amount, provided it is not an upper-case
letter (digits, punctuation, other bytes, and space when `includeSpaces` is
false); an upper-case letter is returned unchanged by neither. -/
theorem rotate_passThrough_iff (c r : Nat) (s : Bool)
    (h1 : ¬ isLower c) (h2 : ¬ (c = 32 ∧ s = true)) :
    (¬ isUpper c → rotateForward c r s = some c ∧ rotateBackward c r s = some c) ∧
    (isUpper c → rotateForward c r s ≠ some c ∧ rotateBackward c r s ≠ some c) := by
  constructor
  · intro hu
    have hp : ¬ participates c s := by
      simp only [participates, not_or]; exact ⟨h1, h2⟩
    obtain ⟨ha, hs⟩ := isalpha_false_of_not c s hu hp
    have hf := rotate_passThrough true c r s ha hs
    have hb := rotate_passThrough false c r s ha hs
    simp only [rotate, if_true, Bool.false_eq_true, if_false] at hf hb
    exact ⟨hf, hb⟩
  · intro hu
    obtain ⟨x, hx, hxp⟩ := rotateForward_upper c r s hu
    refine ⟨?_, by rw [rotateBackward_upper c r s hu]; exact Option.noConfusion⟩
    rw [hx]
    intro h
    have hxc : x = c := Option.some.inj h
    rw [hxc] at hxp
    exact participates_not_upper c s hxp hu

theorem rotate_passThrough_iff_witness :
    (¬ isUpper 55 → rotateForward 55 40 true = some 55 ∧ rotateBackward 55 40 true = some 55) ∧
    (isUpper 55 → rotateForward 55 40 true ≠ some 55 ∧ rotateBackward 55 40 true ≠ some 55) :=
  rotate_passThrough_iff 55 40 true (by decide) (by decide)

/-- C7 (as stated, refuted): for the byte `'M'` (77), rotation 5 and
`includeSpaces = false`, `rotateBackward` computes the position
`2 ^ 64 - 20 - 5`, which is not an index of the 27-entry table: the read is
out of range. -/
theorem rotateBackward_upper_M_out_of_range :
    isalpha 77 = true ∧ (77 + sizeModulus - 97) % sizeModulus - 5 % effectiveSize false
        = 2 ^ 64 - 25 ∧
      rotateBackward 77 5 false = none := by
  decide

/-- C7 (amended): `rotateForward` never reads the table out of range, for any
character, rotation and flag; `rotateBackward` stays in range for every
character that is not an upper-case letter, and reads out of range for every
upper-case letter. -/
theorem rotate_total (c r : Nat) (s : Bool) :
    (rotateForward c r s).isSome = true ∧
      ((rotateBackward c r s).isSome = true ↔ ¬ isUpper c) := by
  have hf : (rotateForward c r s).isSome = true := by
    by_cases hu : isUpper c
    · obtain ⟨x, hx, _⟩ := rotateForward_upper c r s hu
      rw [hx]; rfl
    · obtain ⟨x, hx, _⟩ := Option.bind_eq_some.mp (rotate_roundTrip c r s hu)
      rw [hx]; rfl
  refine ⟨hf, ?_, ?_⟩
  · intro h hu
    rw [rotateBackward_upper c r s hu] at h
    cases h
  · intro hu
    obtain ⟨x, hx, _⟩ := Option.bind_eq_some.mp (rotate_roundTrip_rev c r s hu)
    rw [hx]; rfl

/-! ## The rotation as index arithmetic -/

/-- C8: for a lower-case letter `c` (position `c - 'a'`), and for the space
(position 26) when `includeSpaces` is true, with `n` = 27 if `includeSpaces`
else 26, `rotateForward c r includeSpaces` is the alphabet symbol at index
`(p + r mod n) mod n`, an index inside the table, for every rotation `r`. -/
theorem rotateForward_index (c r : Nat) (s : Bool) (h : participates c s) :
    effectiveSize s = (if s = true then 27 else 26) ∧
    position c = (if c = 32 then 26 else c - 97) ∧
    (position c + r % effectiveSize s) % effectiveSize s < letters.length ∧
    rotateForward c r s
      = letters[(position c + r % effectiveSize s) % effectiveSize s]? := by
  refine ⟨by cases s <;> rfl, rfl, ?_, rotateForward_participates c r s h⟩
  exact lt_of_lt_of_le (Nat.mod_lt _ (effectiveSize_pos s)) (effectiveSize_le s)

theorem rotateForward_index_witness :
    effectiveSize true = (if true = true then 27 else 26) ∧
    position 32 = (if (32 : Nat) = 32 then 26 else 32 - 97) ∧
    (position 32 + 100 % effectiveSize true) % effectiveSize true < letters.length ∧
    rotateForward 32 100 true
      = letters[(position 32 + 100 % effectiveSize true) % effectiveSize true]? :=
  rotateForward_index 32 100 true (by decide)

/-- C9: for every participating character `c` (lower-case letter, or space
with `includeSpaces` true) and every rotation `r`, the subtract-with-wraparound
of `rotateBackward` reads the alphabet at index `(p + n - r mod n) mod n`
(`rotateBackwardSpec`), which is inside the table, and the result equals
`rotateForward c (n - r mod n) includeSpaces`. -/
theorem rotateBackward_eq_inverse (c r : Nat) (s : Bool) (h : participates c s) :
    rotateBackward c r s = rotateBackwardSpec c r s ∧
    (position c + effectiveSize s - r % effectiveSize s) % effectiveSize s < letters.length ∧
    rotateBackward c r s
      = rotateForward c (effectiveSize s - r % effectiveSize s) s := by
  refine ⟨rotateBackward_participates c r s h, ?_, ?_⟩
  · exact lt_of_lt_of_le (Nat.mod_lt _ (effectiveSize_pos s)) (effectiveSize_le s)
  · rw [rotateBackward_participates c r s h, rotateBackwardSpec,
      rotateForward_participates c _ s h, complement_index _ r s (position_lt c s h)]

theorem rotateBackward_eq_inverse_witness :
    rotateBackward 98 55 false = rotateBackwardSpec 98 55 false ∧
    (position 98 + effectiveSize false - 55 % effectiveSize false) % effectiveSize false
      < letters.length ∧
    rotateBackward 98 55 false
      = rotateForward 98 (effectiveSize false - 55 % effectiveSize false) false :=
  rotateBackward_eq_inverse 98 55 false (by decide)

/-! ## The rotation as a permutation of the alphabet -/

theorem inAlphabet_cases (c : Nat) (s : Bool) (h : inAlphabet c) :
    participates c s ∨ (c = 32 ∧ s = false) := by
  rcases h with h | h
  · exact Or.inl (Or.inl h)
  · cases s
    · exact Or.inr ⟨h, rfl⟩
    · exact Or.inl (Or.inr ⟨h, rfl⟩)

theorem participates_inAlphabet (c : Nat) (s : Bool) (h : participates c s) : inAlphabet c := by
  rcases h with h | h
  · exact Or.inl h
  · exact Or.inr h.1

theorem inAlphabet_not_upper (c : Nat) (h : inAlphabet c) : ¬ isUpper c := by
  simp only [inAlphabet, isLower, isUpper] at *
  omega

theorem participates_false_iff (c : Nat) : participates c false ↔ isLower c := by
  simp [participates]

theorem rotateForward_space_excluded (r : Nat) : rotateForward 32 r false = some 32 := by
  simp [rotateForward]

theorem rotateBackward_space_excluded (r : Nat) : rotateBackward 32 r false = some 32 := by
  simp [rotateBackward]

/-- C10: for every rotation `r` and flag `includeSpaces`, `rotateForward` with
that rotation and flag maps alphabet symbols to alphabet symbols, injectively
and onto the alphabet; when `includeSpaces` is false it fixes the space and
maps `'a'..'z'` onto `'a'..'z'` (a letter never becomes a space); when
`includeSpaces` is true the first three parts say it permutes all 27 symbols. -/
theorem rotateForward_bijective (r : Nat) (s : Bool) :
    (∀ c, inAlphabet c → ∃ x, rotateForward c r s = some x ∧ inAlphabet x) ∧
    (∀ c d, inAlphabet c → inAlphabet d →
      rotateForward c r s = rotateForward d r s → c = d) ∧
    (∀ y, inAlphabet y → ∃ c, inAlphabet c ∧ rotateForward c r s = some y) ∧
    (s = false → rotateForward 32 r s = some 32 ∧
      (∀ c, isLower c → ∃ x, rotateForward c r s = some x ∧ isLower x) ∧
      (∀ y, isLower y → ∃ c, isLower c ∧ rotateForward c r s = some y)) := by
  refine ⟨?_, ?_, ?_, ?_⟩
  · intro c hc
    rcases inAlphabet_cases c s hc with hp | ⟨h32, hs⟩
    · obtain ⟨x, hx, hxp⟩ := rotateForward_closed c r s hp
      exact ⟨x, hx, participates_inAlphabet x s hxp⟩
    · subst h32 hs
      exact ⟨32, rotateForward_space_excluded r, by decide⟩
  · intro c d hc hd h
    have h1 := rotate_roundTrip c r s (inAlphabet_not_upper c hc)
    have h2 := rotate_roundTrip d r s (inAlphabet_not_upper d hd)
    rw [h, h2] at h1
    exact (Option.some.inj h1).symm
  · intro y hy
    obtain ⟨c, hc, hcy⟩ := Option.bind_eq_some.mp
      (rotate_roundTrip_rev y r s (inAlphabet_not_upper y hy))
    refine ⟨c, ?_, hcy⟩
    rcases inAlphabet_cases y s hy with hp | ⟨h32, hs⟩
    · obtain ⟨x, hx, hxp⟩ := rotateBackward_closed y r s hp
      rw [hx] at hc
      rw [← Option.some.inj hc]
      exact participates_inAlphabet x s hxp
    · subst h32 hs
      rw [rotateBackward_space_excluded] at hc
      rw [← Option.some.inj hc]
      decide
  · intro hs
    subst hs
    refine ⟨rotateForward_space_excluded r, ?_, ?_⟩
    · intro c hc
      obtain ⟨x, hx, hxp⟩ := rotateForward_closed c r false ((participates_false_iff c).mpr hc)
      exact ⟨x, hx, (participates_false_iff x).mp hxp⟩
    · intro y hy
      have hp := (participates_false_iff y).mpr hy
      obtain ⟨c, hc, hcy⟩ := Option.bind_eq_some.mp
        (rotate_roundTrip_rev y r false (participates_not_upper y false hp))
      obtain ⟨x, hx, hxp⟩ := rotateBackward_closed y r false hp
      rw [hx] at hc
      have hxc : x = c := Option.some.inj hc
      rw [hxc] at hxp
      exact ⟨c, (participates_false_iff c).mp hxp, hcy⟩

theorem rotateForward_bijective_witness :
    (∃ c, inAlphabet c ∧ rotateForward c 30 true = some 32) ∧
    (∃ c, isLower c ∧ rotateForward c 30 false = some 97) :=
  ⟨(rotateForward_bijective 30 true).2.2.1 32 (by decide),
   ((rotateForward_bijective 30 false).2.2.2 rfl).2.2 97 (by decide)⟩

/-! ## Rotation amounts and composition -/

theorem rotateForward_mod (c r : Nat) (s : Bool) :
    rotateForward c r s = rotateForward c (r % effectiveSize s) s := by
  simp only [rotateForward, Nat.mod_mod]

theorem rotateBackward_mod (c r : Nat) (s : Bool) :
    rotateBackward c r s = rotateBackward c (r % effectiveSize s) s := by
  simp only [rotateBackward, Nat.mod_mod]

theorem rotateForward_congr (c a b : Nat) (s : Bool)
    (h : a % effectiveSize s = b % effectiveSize s) :
    rotateForward c a s = rotateForward c b s := by
  rw [rotateForward_mod c a, rotateForward_mod c b, h]

theorem rotateBackward_congr (c a b : Nat) (s : Bool)
    (h : a % effectiveSize s = b % effectiveSize s) :
    rotateBackward c a s = rotateBackward c b s := by
  rw [rotateBackward_mod c a, rotateBackward_mod c b, h]

theorem rotateForward_nonParticipating (c r : Nat) (s : Bool)
    (hu : ¬ isUpper c) (hp : ¬ participates c s) : rotateForward c r s = some c := by
  obtain ⟨h1, h2⟩ := isalpha_false_of_not c s hu hp
  have hf := rotate_passThrough true c r s h1 h2
  simpa only [rotate, if_true] using hf

theorem rotateBackward_nonParticipating (c r : Nat) (s : Bool)
    (hu : ¬ isUpper c) (hp : ¬ participates c s) : rotateBackward c r s = some c := by
  obtain ⟨h1, h2⟩ := isalpha_false_of_not c s hu hp
  have hb := rotate_passThrough false c r s h1 h2
  simpa only [rotate, Bool.false_eq_true, if_false] using hb

theorem rotateBackward_eq_forward (c r : Nat) (s : Bool) (hu : ¬ isUpper c) :
    rotateBackward c r s
      = rotateForward c (effectiveSize s - r % effectiveSize s) s := by
  by_cases h : participates c s
  · rw [rotateBackward_participates c r s h, rotateBackwardSpec,
      rotateForward_participates c _ s h, complement_index _ r s (position_lt c s h)]
  · rw [rotateBackward_nonParticipating c r s hu h, rotateForward_nonParticipating c _ s hu h]

theorem add_index (p a b : Nat) (s : Bool) :
    ((p + a % effectiveSize s) % effectiveSize s + b % effectiveSize s) % effectiveSize s
      = (p + (a + b) % effectiveSize s) % effectiveSize s := by
  cases s
  · simp only [effectiveSize_false]; omega
  · simp only [effectiveSize_true]; omega

theorem rotateForward_add (c a b : Nat) (s : Bool) (hu : ¬ isUpper c) :
    (rotateForward c a s).bind (fun x => rotateForward x b s) = rotateForward c (a + b) s := by
  by_cases h : participates c s
  · obtain ⟨x, hx, hxp, hxi⟩ := lookup_participates _ s
      (Nat.mod_lt (position c + a % effectiveSize s) (effectiveSize_pos s))
    rw [rotateForward_participates c a s h, hx, Option.some_bind,
      rotateForward_participates x b s hxp, hxi, add_index,
      rotateForward_participates c (a + b) s h]
  · rw [rotateForward_nonParticipating c a s hu h, Option.some_bind,
      rotateForward_nonParticipating c b s hu h, rotateForward_nonParticipating c _ s hu h]

theorem letters_index_inj (i j : Nat) (s : Bool)
    (hi : i < effectiveSize s) (hj : j < effectiveSize s) (h : letters[i]? = letters[j]?) :
    i = j := by
  obtain ⟨x, hx, _, hxi⟩ := lookup_participates i s hi
  obtain ⟨y, hy, _, hyj⟩ := lookup_participates j s hj
  rw [hx, hy] at h
  rw [← hxi, ← hyj, Option.some.inj h]

theorem index_eq_iff (p a b : Nat) (s : Bool) (hp : p < effectiveSize s) :
    (p + a % effectiveSize s) % effectiveSize s = (p + b % effectiveSize s) % effectiveSize s
      ↔ a % effectiveSize s = b % effectiveSize s := by
  cases s
  · simp only [effectiveSize_false] at *; omega
  · simp only [effectiveSize_true] at *; omega

theorem rotateForward_eq_iff (c a b : Nat) (s : Bool) (h : participates c s) :
    rotateForward c a s = rotateForward c b s
      ↔ a % effectiveSize s = b % effectiveSize s := by
  constructor
  · intro he
    rw [rotateForward_participates c a s h, rotateForward_participates c b s h] at he
    have := letters_index_inj _ _ s (Nat.mod_lt _ (effectiveSize_pos s))
      (Nat.mod_lt _ (effectiveSize_pos s)) he
    exact (index_eq_iff _ a b s (position_lt c s h)).mp this
  · exact rotateForward_congr c a b s

theorem rotateForward_zero (c : Nat) (s : Bool) (hu : ¬ isUpper c) :
    rotateForward c 0 s = some c := by
  by_cases h : participates c s
  · rw [rotateForward_participates c 0 s h, Nat.zero_mod, Nat.add_zero,
      Nat.mod_eq_of_lt (position_lt c s h)]
    exact letters_position c s h
  · exact rotateForward_nonParticipating c 0 s hu h

theorem rotateForward_eq_self_iff (c r : Nat) (s : Bool) (h : participates c s) :
    rotateForward c r s = some c ↔ r % effectiveSize s = 0 := by
  rw [← rotateForward_zero c s (participates_not_upper c s h), rotateForward_eq_iff c r 0 s h,
    Nat.zero_mod]

/-- Forward by `e` then backward by `d` is forward by `e + (n - d mod n)`. -/
theorem rotate_forward_backward (c e d : Nat) (s : Bool) (hu : ¬ isUpper c) :
    (rotateForward c e s).bind (fun x => rotateBackward x d s)
      = rotateForward c (e + (effectiveSize s - d % effectiveSize s)) s := by
  rw [← rotateForward_add c e _ s hu]
  by_cases h : participates c s
  · obtain ⟨x, hx, hxp⟩ := rotateForward_closed c e s h
    rw [hx, Option.some_bind, Option.some_bind,
      rotateBackward_eq_forward x d s (participates_not_upper x s hxp)]
  · rw [rotateForward_nonParticipating c e s hu h, Option.some_bind, Option.some_bind,
      rotateBackward_eq_forward c d s hu]

/-! ## The loops, index by index -/

theorem rotate_defined (f : Bool) (c r : Nat) (s : Bool) :
    (∃ x, rotate f c r s = some x) ↔ (f = true ∨ ¬ isUpper c) := by
  cases f
  · simp only [rotate, Bool.false_eq_true, if_false, false_or]
    constructor
    · rintro ⟨x, hx⟩ hu
      rw [rotateBackward_upper c r s hu] at hx
      cases hx
    · intro hu
      obtain ⟨x, hx, _⟩ := Option.bind_eq_some.mp (rotate_roundTrip_rev c r s hu)
      exact ⟨x, hx⟩
  · simp only [rotate, if_true, true_or, iff_true]
    by_cases hu : isUpper c
    · obtain ⟨x, hx, _⟩ := rotateForward_upper c r s hu
      exact ⟨x, hx⟩
    · obtain ⟨x, hx, _⟩ := Option.bind_eq_some.mp (rotate_roundTrip c r s hu)
      exact ⟨x, hx⟩

theorem rotateEach_eq_some_iff (f s : Bool) (rot : Nat → Nat) (text : List Nat) :
    ∀ i out, rotateEach f s rot i text = some out ↔
      (out.length = text.length ∧
        ∀ k c, text[k]? = some c → rotate f c (rot (i + k)) s = out[k]?) := by
  induction text with
  | nil =>
    intro i out
    simp only [rotateEach, Option.some.injEq, List.length_nil, List.getElem?_nil,
      reduceCtorEq, false_implies, implies_true, and_true]
    constructor
    · intro h; rw [← h]; rfl
    · intro h; exact (List.length_eq_zero.mp h).symm
  | cons c cs ih =>
    intro i out
    constructor
    · intro h
      simp only [rotateEach] at h
      cases h1 : rotate f c (rot i) s with
      | none => rw [h1] at h; cases h
      | some x =>
        cases h2 : rotateEach f s rot (i + 1) cs with
        | none => rw [h1, h2] at h; cases h
        | some xs =>
          rw [h1, h2] at h
          have hout : out = x :: xs := (Option.some.inj h).symm
          obtain ⟨hl, hk⟩ := (ih (i + 1) xs).mp h2
          subst hout
          refine ⟨by simp [hl], ?_⟩
          intro k d hd
          cases k with
          | zero =>
            simp only [List.getElem?_cons_zero, Option.some.injEq] at hd
            subst hd
            simpa using h1
          | succ k =>
            simp only [List.getElem?_cons_succ] at hd ⊢
            have := hk k d hd
            rwa [Nat.add_assoc, Nat.add_comm 1 k] at this
    · rintro ⟨hl, hk⟩
      cases out with
      | nil => simp at hl
      | cons x xs =>
        have h1 : rotate f c (rot i) s = some x := by
          simpa using hk 0 c (by simp)
        have h2 : rotateEach f s rot (i + 1) cs = some xs := by
          apply (ih (i + 1) xs).mpr
          refine ⟨by simpa using hl, ?_⟩
          intro k d hd
          have := hk (k + 1) d (by simpa using hd)
          simp only [List.getElem?_cons_succ] at this
          rwa [Nat.add_assoc, Nat.add_comm 1 k]
        simp only [rotateEach, h1, h2]

theorem rotateEach_congr (f g s : Bool) (rot1 rot2 : Nat → Nat) (text : List Nat) :
    ∀ i, (∀ k c, text[k]? = some c →
        rotate f c (rot1 (i + k)) s = rotate g c (rot2 (i + k)) s) →
      rotateEach f s rot1 i text = rotateEach g s rot2 i text := by
  induction text with
  | nil => intro i _; rfl
  | cons c cs ih =>
    intro i h
    have h0 : rotate f c (rot1 i) s = rotate g c (rot2 i) s := by
      simpa using h 0 c (by simp)
    have ih1 := ih (i + 1) (fun k d hd => by
      have := h (k + 1) d (by simpa using hd)
      rwa [Nat.add_assoc, Nat.add_comm 1 k])
    simp only [rotateEach, h0, ih1]

theorem rotateEach_comp (s f1 f2 f3 : Bool) (rot1 rot2 rot3 : Nat → Nat) (text : List Nat) :
    ∀ i, (∀ k c, text[k]? = some c →
        (rotate f1 c (rot1 (i + k)) s).bind (fun x => rotate f2 x (rot2 (i + k)) s)
          = rotate f3 c (rot3 (i + k)) s) →
      (rotateEach f1 s rot1 i text).bind (fun e => rotateEach f2 s rot2 i e)
        = rotateEach f3 s rot3 i text := by
  induction text with
  | nil => intro i _; rfl
  | cons c cs ih =>
    intro i h
    have h0 : (rotate f1 c (rot1 i) s).bind (fun x => rotate f2 x (rot2 i) s)
        = rotate f3 c (rot3 i) s := by
      simpa using h 0 c (by simp)
    have ih1 := ih (i + 1) (fun k d hd => by
      have := h (k + 1) d (by simpa using hd)
      rwa [Nat.add_assoc, Nat.add_comm 1 k])
    simp only [rotateEach]
    cases h1 : rotate f1 c (rot1 i) s with
    | none =>
      rw [h1] at h0
      simp only [Option.none_bind] at h0 ⊢
      rw [← h0]
    | some x =>
      rw [h1, Option.some_bind] at h0
      cases h2 : rotateEach f1 s rot1 (i + 1) cs with
      | none =>
        rw [h2, Option.none_bind] at ih1
        simp only [Option.none_bind]
        rw [← ih1]
        cases rotate f3 c (rot3 i) s <;> rfl
      | some xs =>
        rw [h2, Option.some_bind] at ih1
        simp only [Option.some_bind, rotateEach, h0, ih1]

theorem rotateEach_shift (f s : Bool) (rot : Nat → Nat) (text : List Nat) :
    ∀ i, rotateEach f s rot (i + 1) text = rotateEach f s (fun j => rot (j + 1)) i text := by
  induction text with
  | nil => intro i; rfl
  | cons c cs ih => intro i; simp only [rotateEach, ih]

theorem rotateEach_defined (f s : Bool) (rot : Nat → Nat) (text : List Nat) :
    ∀ i, (∃ out, rotateEach f s rot i text = some out)
      ↔ (f = true ∨ ∀ c ∈ text, ¬ isUpper c) := by
  induction text with
  | nil => intro i; simp [rotateEach]
  | cons c cs ih =>
    intro i
    have hc := rotate_defined f c (rot i) s
    have hcs := ih (i + 1)
    constructor
    · rintro ⟨out, h⟩
      simp only [rotateEach] at h
      cases h1 : rotate f c (rot i) s with
      | none => rw [h1] at h; cases h
      | some x =>
        cases h2 : rotateEach f s rot (i + 1) cs with
        | none => rw [h1, h2] at h; cases h
        | some xs =>
          rcases hc.mp ⟨x, h1⟩ with hf | hu
          · exact Or.inl hf
          · rcases hcs.mp ⟨xs, h2⟩ with hf | hus
            · exact Or.inl hf
            · right
              intro d hd
              rcases List.mem_cons.mp hd with hd | hd
              · rw [hd]; exact hu
              · exact hus d hd
    · intro h
      have h1 : f = true ∨ ¬ isUpper c := by
        rcases h with hf | hu
        · exact Or.inl hf
        · exact Or.inr (hu c (List.mem_cons_self c cs))
      have h2 : f = true ∨ ∀ d ∈ cs, ¬ isUpper d := by
        rcases h with hf | hu
        · exact Or.inl hf
        · exact Or.inr (fun d hd => hu d (List.mem_cons_of_mem c hd))
      obtain ⟨x, hx⟩ := hc.mpr h1
      obtain ⟨xs, hxs⟩ := hcs.mpr h2
      exact ⟨x :: xs, by simp only [rotateEach, hx, hxs]⟩

theorem rotateForward_multiple (c r : Nat) (s : Bool) (hu : ¬ isUpper c)
    (h : r % effectiveSize s = 0) : rotateForward c r s = some c := by
  rw [rotateForward_congr c r 0 s (by rw [h, Nat.zero_mod]), rotateForward_zero c s hu]

theorem rotateEach_frame (f s : Bool) (rot : Nat → Nat) (text : List Nat) (i : Nat)
    (h : f = true ∨ ∀ c ∈ text, ¬ isUpper c) :
    preservesFrame text s (rotateEach f s rot i text) := by
  obtain ⟨out, hout⟩ := (rotateEach_defined f s rot text i).mpr h
  obtain ⟨hl, hk⟩ := (rotateEach_eq_some_iff f s rot text i out).mp hout
  refine ⟨out, hout, hl, ?_⟩
  intro k c hc ha hs
  rw [← hk k c hc]
  exact rotate_passThrough f c _ s ha hs

/-! ## Full cycle, and the strings character by character -/

/-- C11: for every lower-case letter `c`, rotating by 26 with
`includeSpaces = false` returns `c`, forward and backward; for every
lower-case letter or space `c`, rotating by 27 with `includeSpaces = true`
returns `c`, forward and backward. -/
theorem full_cycle_identity :
    (∀ c, isLower c →
      rotateForward c 26 false = some c ∧ rotateBackward c 26 false = some c) ∧
    (∀ c, inAlphabet c →
      rotateForward c 27 true = some c ∧ rotateBackward c 27 true = some c) := by
  constructor
  · intro c hc
    have hu : ¬ isUpper c := inAlphabet_not_upper c (Or.inl hc)
    have hf := rotateForward_multiple c 26 false hu rfl
    refine ⟨hf, ?_⟩
    rw [rotateBackward_eq_forward c 26 false hu]
    exact hf
  · intro c hc
    have hu : ¬ isUpper c := inAlphabet_not_upper c hc
    have hf := rotateForward_multiple c 27 true hu rfl
    refine ⟨hf, ?_⟩
    rw [rotateBackward_eq_forward c 27 true hu]
    exact hf

theorem full_cycle_identity_witness :
    (rotateForward 113 26 false = some 113 ∧ rotateBackward 113 26 false = some 113) ∧
    (rotateForward 32 27 true = some 32 ∧ rotateBackward 32 27 true = some 32) :=
  ⟨full_cycle_identity.1 113 (by decide), full_cycle_identity.2 32 (by decide)⟩

/-- C12: `cipher text key forward includeSpaces` returns `out` exactly when
`out` has the length of `text` and, at every index `i`, `out[i]` is
`rotateForward text[i] ((key + i) mod 2^64)` when `forward` is true and
`rotateBackward text[i] ((key + i) mod 2^64)` when it is false; such an `out`
exists whenever the direction is forward or the text has no upper-case
letter; and `cipher "ab" 0 true true` is `"ac"`. -/
theorem cipher_characters :
    (∀ (text : List Nat) (key : Nat) (f s : Bool) (out : List Nat),
      cipher text key f s = some out ↔
        (out.length = text.length ∧
          ∀ i c, text[i]? = some c →
            (if f = true then rotateForward c ((key + i) % 2 ^ 64) s
              else rotateBackward c ((key + i) % 2 ^ 64) s) = out[i]?)) ∧
    (∀ (text : List Nat) (key : Nat) (f s : Bool),
      (∃ out, cipher text key f s = some out) ↔ (f = true ∨ ∀ c ∈ text, ¬ isUpper c)) ∧
    cipher (bytes "ab") 0 true true = some (bytes "ac") := by
  refine ⟨?_, ?_, by decide⟩
  · intro text key f s out
    have := rotateEach_eq_some_iff f s (fun j => (key + j) % sizeModulus) text 0 out
    simpa only [cipher, cipherLoop_eq, rotate, Nat.zero_add, sizeModulus] using this
  · intro text key f s
    have := rotateEach_defined f s (fun j => (key + j) % sizeModulus) text 0
    simpa only [cipher, cipherLoop_eq] using this

theorem cipher_characters_witness :
    ∃ out, cipher (bytes "a, z") (2 ^ 64 - 1) false true = some out :=
  (cipher_characters.2.1 (bytes "a, z") (2 ^ 64 - 1) false true).mpr (Or.inr (by decide))

/-- C13 (as stated, refuted): with the text `"A"` and the backward direction
none of `cipher`, `rotCipher`, `randCipher` has a result (the table is read
out of range), so there is no output of the input's length. -/
theorem upper_backward_no_output :
    cipher (bytes "A") 0 false false = none ∧
    rotCipher (bytes "A") 0 false false = none ∧
    randCipher (fun _ _ => 0) (bytes "A") 0 false false = none ∧
    ¬ preservesFrame (bytes "A") false (cipher (bytes "A") 0 false false) := by
  refine ⟨by decide, by decide, by decide, ?_⟩
  rintro ⟨out, h, _⟩
  have hn : cipher (bytes "A") 0 false false = none := by decide
  rw [hn] at h
  cases h

/-- C13 (amended): for each of `cipher`, `rotCipher` and `randCipher` (with any
generator), for every key and `includeSpaces`, when the direction is forward
or the text has no upper-case letter: the output exists, has the length of
the input, and at every index `i` where `text[i]` is neither an alphabetic
letter nor a space with `includeSpaces` true, `output[i] = text[i]`. -/
theorem ciphers_preserve_frame (gen : Nat → Nat → Nat) (text : List Nat) (key : Nat)
    (f s : Bool) (h : f = true ∨ ∀ c ∈ text, ¬ isUpper c) :
    preservesFrame text s (cipher text key f s) ∧
    preservesFrame text s (rotCipher text key f s) ∧
    preservesFrame text s (randCipher gen text key f s) := by
  refine ⟨?_, ?_, ?_⟩
  · have := rotateEach_frame f s (fun j => (key + j) % sizeModulus) text 0 h
    simpa only [cipher, cipherLoop_eq] using this
  · have := rotateEach_frame f s (fun _ => key) text 0 h
    simpa only [rotCipher, ← rotCipherLoop_eq key f s text 0] using this
  · have := rotateEach_frame f s (gen (key % uintModulus)) text 0 h
    simpa only [randCipher, randCipherLoop_eq] using this

theorem ciphers_preserve_frame_witness :
    preservesFrame (bytes "Hi, yo u2") true (cipher (bytes "Hi, yo u2") 7 true true) ∧
    preservesFrame (bytes "Hi, yo u2") true (rotCipher (bytes "Hi, yo u2") 7 true true) ∧
    preservesFrame (bytes "Hi, yo u2") true
      (randCipher (fun a b => a + b) (bytes "Hi, yo u2") 7 true true) :=
  ciphers_preserve_frame (fun a b => a + b) (bytes "Hi, yo u2") 7 true true (Or.inl rfl)

/-! ## Position-dependent against constant rotation, and wrong keys -/

theorem add_residue_iff (k i : Nat) (s : Bool) :
    (k + i) % effectiveSize s = k % effectiveSize s ↔ i % effectiveSize s = 0 := by
  cases s
  · simp only [effectiveSize_false]; omega
  · simp only [effectiveSize_true]; omega

theorem wrongKey_residue (key : Nat) (s : Bool) (hk : 1 ≤ key) :
    (key + (effectiveSize s - (key - 1) % effectiveSize s)) % effectiveSize s
      = 1 % effectiveSize s := by
  cases s
  · simp only [effectiveSize_false]; omega
  · simp only [effectiveSize_true]; omega

theorem wrongKey_index_residue (key j : Nat) (s : Bool) (hk : 1 ≤ key)
    (hj : key + j < sizeModulus) :
    ((key + j) % sizeModulus
        + (effectiveSize s - ((key - 1 + j) % sizeModulus) % effectiveSize s)) % effectiveSize s
      = 1 % effectiveSize s := by
  rw [Nat.mod_eq_of_lt hj, Nat.mod_eq_of_lt (by omega : key - 1 + j < sizeModulus)]
  have h := wrongKey_residue (key + j) s (by omega)
  rwa [(by omega : key + j - 1 = key - 1 + j)] at h

theorem sizeModulus_pred_residue (s : Bool) :
    (0 + (effectiveSize s - (sizeModulus - 1) % effectiveSize s)) % effectiveSize s ≠ 0 := by
  cases s <;> decide

theorem wrongKey_index_nonzero (key j : Nat) (s : Bool) (hk : 1 ≤ key) :
    ((key + j) % sizeModulus
        + (effectiveSize s - ((key - 1 + j) % sizeModulus) % effectiveSize s)) % effectiveSize s
      ≠ 0 := by
  have hM : 0 < sizeModulus := by decide
  have hd : (key - 1 + j) % sizeModulus < sizeModulus := Nat.mod_lt _ hM
  have he : (key + j) % sizeModulus = ((key - 1 + j) % sizeModulus + 1) % sizeModulus := by
    rw [Nat.mod_add_mod]
    congr 1
    omega
  rw [he]
  generalize (key - 1 + j) % sizeModulus = d at hd
  by_cases hw : d + 1 < sizeModulus
  · rw [Nat.mod_eq_of_lt hw]
    have h := wrongKey_residue (d + 1) s (by omega)
    rw [Nat.add_sub_cancel] at h
    rw [h]
    cases s <;> decide
  · have hd1 : d = sizeModulus - 1 := by omega
    rw [hd1, Nat.sub_add_cancel hM, Nat.mod_self]
    exact sizeModulus_pred_residue s

theorem one_residue_ne_zero (s : Bool) : 1 % effectiveSize s ≠ 0 := by
  cases s <;> decide

/-- A string rotated forward, character by character, by amounts that are
nowhere a multiple of the alphabet size differs from the original as soon as
it holds a lower-case letter. -/
theorem rotateEach_ne_of_lower (s : Bool) (rot : Nat → Nat) (text out : List Nat)
    (hl : ∃ c ∈ text, isLower c) (hr : ∀ j, rot j % effectiveSize s ≠ 0)
    (h : rotateEach true s rot 0 text = some out) : out ≠ text := by
  obtain ⟨c, hc, hcl⟩ := hl
  obtain ⟨j, hj⟩ := List.mem_iff_getElem?.mp hc
  obtain ⟨_, hk⟩ := (rotateEach_eq_some_iff true s rot text 0 out).mp h
  intro he
  have h1 := hk j c hj
  rw [he, hj, Nat.zero_add] at h1
  simp only [rotate, if_true] at h1
  exact hr j ((rotateForward_eq_self_iff c (rot j) s (Or.inl hcl)).mp h1)

/-- C14 (as stated, refuted): with the text `"AA"`, key 0 and
`includeSpaces = false`, index 1 holds `'A'`, which is not a participating
character, yet `cipher` gives `'l'` (108) there and `rotCipher` gives `'k'`
(107). -/
theorem cipher_rotCipher_differ_on_upper :
    0 + (bytes "AA").length < 2 ^ 64 ∧ (bytes "AA")[1]? = some 65 ∧
    ¬ participates 65 false ∧
    cipher (bytes "AA") 0 true false = some [107, 108] ∧
    rotCipher (bytes "AA") 0 true false = some [107, 107] := by
  decide

/-- C14 (amended): `cipher "aaa" 1 true false` is `"bcd"` and differs from
`rotCipher "aaa" 1 true false`, which is `"bbb"`; and for every text, key and
`includeSpaces` with `key + length text < 2^64`, the forward `cipher` and
`rotCipher` outputs differ at every index that is not a multiple of the
effective alphabet size and holds a participating character, and agree at
every other index that does not hold an upper-case letter. -/
theorem cipher_rotCipher_divergence :
    (cipher (bytes "aaa") 1 true false = some (bytes "bcd") ∧
      rotCipher (bytes "aaa") 1 true false = some (bytes "bbb") ∧
      cipher (bytes "aaa") 1 true false ≠ rotCipher (bytes "aaa") 1 true false) ∧
    ∀ (text : List Nat) (key : Nat) (s : Bool), key + text.length < 2 ^ 64 →
      ∃ a b, cipher text key true s = some a ∧ rotCipher text key true s = some b ∧
        a.length = text.length ∧ b.length = text.length ∧
        ∀ i c, text[i]? = some c →
          ((participates c s ∧ i % effectiveSize s ≠ 0 → a[i]? ≠ b[i]?) ∧
           (¬ isUpper c → ¬ (participates c s ∧ i % effectiveSize s ≠ 0) → a[i]? = b[i]?)) := by
  refine ⟨by decide, ?_⟩
  intro text key s hk
  obtain ⟨a, ha⟩ := (rotateEach_defined true s (fun j => (key + j) % sizeModulus) text 0).mpr
    (Or.inl rfl)
  obtain ⟨b, hb⟩ := (rotateEach_defined true s (fun _ => key) text 0).mpr (Or.inl rfl)
  obtain ⟨hal, hak⟩ := (rotateEach_eq_some_iff true s _ text 0 a).mp ha
  obtain ⟨hbl, hbk⟩ := (rotateEach_eq_some_iff true s _ text 0 b).mp hb
  refine ⟨a, b, ?_, ?_, hal, hbl, ?_⟩
  · simpa only [cipher, cipherLoop_eq] using ha
  · simpa only [rotCipher, ← rotCipherLoop_eq key true s text 0] using hb
  intro i c hc
  obtain ⟨hi, _⟩ := List.getElem?_eq_some.mp hc
  have e1 := hak i c hc
  have e2 := hbk i c hc
  have hmod : (key + i) % sizeModulus = key + i :=
    Nat.mod_eq_of_lt (by simp only [sizeModulus]; omega)
  simp only [rotate, if_true, Nat.zero_add, hmod] at e1 e2
  rw [← e1, ← e2]
  constructor
  · rintro ⟨hp, hi0⟩ heq
    exact hi0 ((add_residue_iff key i s).mp ((rotateForward_eq_iff c _ _ s hp).mp heq))
  · intro hu hn
    by_cases hp : participates c s
    · have hi0 : i % effectiveSize s = 0 := by
        by_contra h0
        exact hn ⟨hp, h0⟩
      exact rotateForward_congr c _ _ s ((add_residue_iff key i s).mpr hi0)
    · rw [rotateForward_nonParticipating c _ s hu hp, rotateForward_nonParticipating c _ s hu hp]

theorem cipher_rotCipher_divergence_witness :
    ∃ a b, cipher (bytes "ab cd") 5 true true = some a ∧
      rotCipher (bytes "ab cd") 5 true true = some b ∧
      a.length = (bytes "ab cd").length ∧ b.length = (bytes "ab cd").length ∧
      ∀ i c, (bytes "ab cd")[i]? = some c →
        ((participates c true ∧ i % effectiveSize true ≠ 0 → a[i]? ≠ b[i]?) ∧
         (¬ isUpper c → ¬ (participates c true ∧ i % effectiveSize true ≠ 0)
            → a[i]? = b[i]?)) :=
  cipher_rotCipher_divergence.2 (bytes "ab cd") 5 true (by decide)

/-- C15 (as stated, refuted): with the text `"aa"`, key `2^64 - 1` and
`includeSpaces = true` (the flag the driver uses for `cipher`), decrypting
`cipher`'s output with key `2^64 - 2` gives `"bd"`: the second character
comes back advanced by three positions, not by one (`"bb"`), because
`key + 1` wraps to 0. -/
theorem wrongKey_cipher_wrap :
    (1 ≤ 2 ^ 64 - 1 ∧ (∃ c ∈ bytes "aa", isLower c) ∧ ∀ c ∈ bytes "aa", ¬ isUpper c) ∧
    cipher (bytes "aa") (2 ^ 64 - 1) true true = some (bytes "ya") ∧
    (cipher (bytes "aa") (2 ^ 64 - 1) true true).bind
        (fun e => cipher e (2 ^ 64 - 1 - 1) false true) = some (bytes "bd") ∧
    rotCipher (bytes "aa") 1 true true = some (bytes "bb") ∧
    rotateForward 97 3 true = some 100 := by
  decide

/-- C15 (amended): for every text with at least one lower-case letter and no
upper-case letter, every key `>= 1` and both values of `includeSpaces`,
decrypting with `key - 1` what was encrypted with `key` gives a result
different from the text, for `rotCipher` and for `cipher`; for `rotCipher`
the result is the text with every participating character advanced by one
alphabet position (`rotCipher text 1 true`), and for `cipher` the same holds
when `key + length text <= 2^64` (no sum `key + i` wraps). -/
theorem wrongKey_not_recovered (text : List Nat) (key : Nat) (s : Bool)
    (hl : ∃ c ∈ text, isLower c) (hu : ∀ c ∈ text, ¬ isUpper c) (hk : 1 ≤ key) :
    (∃ out, (rotCipher text key true s).bind (fun e => rotCipher e (key - 1) false s)
        = some out ∧ out ≠ text ∧ rotCipher text 1 true s = some out) ∧
    (∃ out, (cipher text key true s).bind (fun e => cipher e (key - 1) false s)
        = some out ∧ out ≠ text ∧
        (key + text.length ≤ 2 ^ 64 → rotCipher text 1 true s = some out)) := by
  have hone : rotCipher text 1 true s = rotateEach true s (fun _ => 1) 0 text := by
    simp only [rotCipher, ← rotCipherLoop_eq 1 true s text 0]
  constructor
  · have hcomp := rotateEach_comp s true false true (fun _ => key) (fun _ => key - 1)
      (fun _ => 1) text 0 (fun k c hc => by
        simp only [rotate, if_true, Bool.false_eq_true, if_false]
        rw [rotate_forward_backward c key (key - 1) s (hu c (List.getElem?_mem hc))]
        exact rotateForward_congr c _ _ s (wrongKey_residue key s hk))
    obtain ⟨out, hout⟩ := (rotateEach_defined true s (fun _ => 1) text 0).mpr (Or.inl rfl)
    refine ⟨out, ?_, ?_, by rw [hone, hout]⟩
    · simp only [rotCipher, rotCipherLoop_eq key true s text 0,
        rotCipherLoop_eq (key - 1) false s _ 0]
      rw [hcomp, hout]
    · exact rotateEach_ne_of_lower s _ text out hl (fun _ => one_residue_ne_zero s) hout
  · have hcomp := rotateEach_comp s true false true (fun j => (key + j) % sizeModulus)
      (fun j => (key - 1 + j) % sizeModulus)
      (fun j => (key + j) % sizeModulus
        + (effectiveSize s - ((key - 1 + j) % sizeModulus) % effectiveSize s)) text 0
      (fun k c hc => by
        simp only [rotate, if_true, Bool.false_eq_true, if_false]
        exact rotate_forward_backward c _ _ s (hu c (List.getElem?_mem hc)))
    obtain ⟨out, hout⟩ := (rotateEach_defined true s (fun j => (key + j) % sizeModulus
        + (effectiveSize s - ((key - 1 + j) % sizeModulus) % effectiveSize s)) text 0).mpr
      (Or.inl rfl)
    refine ⟨out, ?_, ?_, ?_⟩
    · simp only [cipher, cipherLoop_eq]
      rw [hcomp, hout]
    · exact rotateEach_ne_of_lower s _ text out hl
        (fun j => wrongKey_index_nonzero key j s hk) hout
    · intro hlen
      rw [hone, ← hout]
      apply rotateEach_congr
      intro k c hc
      obtain ⟨hklt, _⟩ := List.getElem?_eq_some.mp hc
      simp only [rotate, if_true, Nat.zero_add]
      exact rotateForward_congr c _ _ s
        ((wrongKey_index_residue key k s hk (by simp only [sizeModulus]; omega)).symm)

theorem wrongKey_not_recovered_witness :
    (∃ out, (rotCipher (bytes "a z!") 40 true true).bind
        (fun e => rotCipher e (40 - 1) false true) = some out ∧ out ≠ bytes "a z!" ∧
        rotCipher (bytes "a z!") 1 true true = some out) ∧
    (∃ out, (cipher (bytes "a z!") 40 true true).bind
        (fun e => cipher e (40 - 1) false true) = some out ∧ out ≠ bytes "a z!" ∧
        (40 + (bytes "a z!").length ≤ 2 ^ 64 →
          rotCipher (bytes "a z!") 1 true true = some out)) :=
  wrongKey_not_recovered (bytes "a z!") 40 true (by decide) (by decide) (by decide)

/-! ## Residues, the driver, composition, misalignment and ROT13 -/

theorem tolower_not_upper (c : Nat) : ¬ isUpper (if isalpha c then tolower c else c) := by
  by_cases hu : isUpper c
  · obtain ⟨h1, h2⟩ := hu
    have ha : isalpha c = true := by simp [isalpha, h1, h2]
    simp only [ha, if_true, tolower, h1, h2, and_self, isUpper]
    omega
  · have ht : tolower c = c := by
      simp only [tolower]
      exact if_neg hu
    simp only [ht, ite_self]
    exact hu

theorem foldLower_not_upper (t : List Nat) : ∀ c ∈ foldLower t, ¬ isUpper c := by
  intro c hc
  obtain ⟨d, _, hd⟩ := List.mem_map.mp hc
  rw [← hd]
  exact tolower_not_upper d

/-- C16: the rotation amount is used only through its residue modulo the
effective alphabet size `n`: if `r1 mod n = r2 mod n` then `rotateForward`
and `rotateBackward` give the same result for `r1` and `r2`, for every
character (upper-case letters included); and `rotCipher` with keys `k` and
`k + n` gives the same output for every text, in both directions. -/
theorem rotation_residue :
    (∀ (c r1 r2 : Nat) (s : Bool), r1 % effectiveSize s = r2 % effectiveSize s →
      rotateForward c r1 s = rotateForward c r2 s ∧
      rotateBackward c r1 s = rotateBackward c r2 s) ∧
    (∀ (text : List Nat) (k : Nat) (f s : Bool),
      rotCipher text k f s = rotCipher text (k + effectiveSize s) f s) := by
  constructor
  · intro c r1 r2 s h
    exact ⟨rotateForward_congr c r1 r2 s h, rotateBackward_congr c r1 r2 s h⟩
  · intro text k f s
    simp only [rotCipher, rotCipherLoop_eq k f s text 0,
      rotCipherLoop_eq (k + effectiveSize s) f s text 0]
    apply rotateEach_congr
    intro j c _
    have h : k % effectiveSize s = (k + effectiveSize s) % effectiveSize s := by
      rw [Nat.add_mod_right]
    cases f
    · simp only [rotate, Bool.false_eq_true, if_false]
      exact rotateBackward_congr c _ _ s h
    · simp only [rotate, if_true]
      exact rotateForward_congr c _ _ s h

theorem rotation_residue_witness :
    rotateForward 120 3 true = rotateForward 120 (2 ^ 64 - 22) true ∧
    rotateBackward 120 3 true = rotateBackward 120 (2 ^ 64 - 22) true :=
  rotation_residue.1 120 3 (2 ^ 64 - 22) true (by decide)

/-- C17: for every input line `t`, with `foldLower t` the line after the
driver has folded its alphabetic characters to lower case, every key and both
values of `includeSpaces`: decrypting the encryption of `foldLower t` with the
same key returns `foldLower t`, for `rotCipher` and for `cipher`. -/
theorem driver_correct_decryption (t : List Nat) (key : Nat) (s : Bool) :
    (rotCipher (foldLower t) key true s).bind (fun e => rotCipher e key false s)
      = some (foldLower t) ∧
    (cipher (foldLower t) key true s).bind (fun e => cipher e key false s)
      = some (foldLower t) := by
  have h := foldLower_not_upper t
  constructor
  · have := rotateEach_roundTrip s (fun _ => key) (foldLower t) 0 h
    simpa only [rotCipher, ← rotCipherLoop_eq key _ s _ 0] using this
  · have := rotateEach_roundTrip s (fun j => (key + j) % sizeModulus) (foldLower t) 0 h
    simpa only [cipher, cipherLoop_eq] using this

/-- C18: for every character `c` that is not an upper-case letter, both
values of `includeSpaces` and rotations `a`, `b` with `a + b < 2^64`,
rotating forward by `a` and then by `b` is rotating forward by the `size_t`
sum `a + b`. -/
theorem rotateForward_compose (c a b : Nat) (s : Bool) (hu : ¬ isUpper c)
    (hab : a + b < 2 ^ 64) :
    (rotateForward c a s).bind (fun x => rotateForward x b s)
      = rotateForward c ((a + b) % 2 ^ 64) s := by
  rw [Nat.mod_eq_of_lt hab]
  exact rotateForward_add c a b s hu

theorem rotateForward_compose_witness :
    (rotateForward 121 30 true).bind (fun x => rotateForward x 50 true)
      = rotateForward 121 ((30 + 50) % 2 ^ 64) true :=
  rotateForward_compose 121 30 50 true (by decide) (by decide)

theorem misaligned_index_residue (key k : Nat) (s : Bool) (h : key + (k + 1) < sizeModulus) :
    ((key + (k + 1)) % sizeModulus
        + (effectiveSize s - ((key + k) % sizeModulus) % effectiveSize s)) % effectiveSize s
      = 1 % effectiveSize s := by
  rw [Nat.mod_eq_of_lt h, Nat.mod_eq_of_lt (by omega : key + k < sizeModulus)]
  have := wrongKey_residue (key + (k + 1)) s (by omega)
  rwa [(by omega : key + (k + 1) - 1 = key + k)] at this

/-- C19: for every non-empty text without upper-case letters, every key with
`key + length text < 2^64` and both values of `includeSpaces`, decrypting with
`cipher` the ciphertext of `cipher` with its first character dropped gives
`rotCipher (tail text) 1 true includeSpaces`, a result that exists: every
participating character of the remaining plaintext advanced by one position. -/
theorem cipher_misaligned (text : List Nat) (key : Nat) (s : Bool) (hne : text ≠ [])
    (hu : ∀ c ∈ text, ¬ isUpper c) (hk : key + text.length < 2 ^ 64) :
    (cipher text key true s).bind (fun e => cipher e.tail key false s)
      = rotCipher text.tail 1 true s ∧
    ∃ out, rotCipher text.tail 1 true s = some out := by
  cases text with
  | nil => exact absurd rfl hne
  | cons c cs =>
    have hdef : ∃ out, rotCipher cs 1 true s = some out := by
      simp only [rotCipher, rotCipherLoop_eq 1 true s cs 0]
      exact (rotateEach_defined true s _ cs 0).mpr (Or.inl rfl)
    refine ⟨?_, hdef⟩
    simp only [cipher, cipherLoop_eq, rotCipher, List.tail_cons, rotCipherLoop_eq 1 true s cs 0]
    obtain ⟨x, hx⟩ := (rotate_defined true c ((key + 0) % sizeModulus) s).mpr (Or.inl rfl)
    obtain ⟨xs, hxs⟩ :=
      (rotateEach_defined true s (fun j => (key + j) % sizeModulus) cs (0 + 1)).mpr (Or.inl rfl)
    have henc : rotateEach true s (fun j => (key + j) % sizeModulus) 0 (c :: cs)
        = some (x :: xs) := by
      simp only [rotateEach, hx, hxs]
    have hcomp := rotateEach_comp s true false true (fun j => (key + (j + 1)) % sizeModulus)
      (fun j => (key + j) % sizeModulus) (fun _ => 1) cs 0 (fun k d hd => by
        obtain ⟨hklt, _⟩ := List.getElem?_eq_some.mp hd
        simp only [rotate, if_true, Bool.false_eq_true, if_false, Nat.zero_add]
        rw [rotate_forward_backward d _ _ s
          (hu d (List.mem_cons_of_mem c (List.getElem?_mem hd)))]
        apply rotateForward_congr
        apply misaligned_index_residue
        simp only [sizeModulus, List.length_cons] at hk ⊢
        omega)
    rw [rotateEach_shift] at hxs
    rw [hxs, Option.some_bind] at hcomp
    rw [henc, Option.some_bind, List.tail_cons]
    exact hcomp

theorem cipher_misaligned_witness :
    (cipher (bytes "hi yo") 13 true true).bind (fun e => cipher e.tail 13 false true)
      = rotCipher (bytes "hi yo").tail 1 true true ∧
    ∃ out, rotCipher (bytes "hi yo").tail 1 true true = some out :=
  cipher_misaligned (bytes "hi yo") 13 true (by decide) (by decide) (by decide)

/-- C20: for every text without upper-case letters, applying
`rotCipher _ 13 true false` twice returns the text, and encrypting with
`rotCipher _ 13 true false` gives the same result as decrypting with
`rotCipher _ 13 false false`. -/
theorem rot13_involution (text : List Nat) (hu : ∀ c ∈ text, ¬ isUpper c) :
    (rotCipher text 13 true false).bind (fun e => rotCipher e 13 true false) = some text ∧
    rotCipher text 13 true false = rotCipher text 13 false false := by
  constructor
  · have hcomp := rotateEach_comp false true true true (fun _ => 13) (fun _ => 13)
      (fun _ => 13 + 13) text 0 (fun k c hc => by
        simp only [rotate, if_true]
        exact rotateForward_add c 13 13 false (hu c (List.getElem?_mem hc)))
    have hid : rotateEach true false (fun _ => 13 + 13) 0 text = some text := by
      apply (rotateEach_eq_some_iff true false _ text 0 text).mpr
      refine ⟨rfl, ?_⟩
      intro k c hc
      simp only [rotate, if_true]
      rw [hc]
      exact rotateForward_multiple c (13 + 13) false (hu c (List.getElem?_mem hc)) rfl
    simp only [rotCipher, rotCipherLoop_eq 13 true false _ 0]
    rw [hcomp, hid]
  · simp only [rotCipher, rotCipherLoop_eq 13 true false text 0,
      rotCipherLoop_eq 13 false false text 0]
    apply rotateEach_congr
    intro k c hc
    simp only [rotate, if_true, Bool.false_eq_true, if_false]
    rw [rotateBackward_eq_forward c 13 false (hu c (List.getElem?_mem hc))]
    rfl

theorem rot13_involution_witness :
    (rotCipher (bytes "hello, world") 13 true false).bind
        (fun e => rotCipher e 13 true false) = some (bytes "hello, world") ∧
    rotCipher (bytes "hello, world") 13 true false
      = rotCipher (bytes "hello, world") 13 false false :=
  rot13_involution (bytes "hello, world") (by decide)

end CipherExample
